import Mathlib

/-!
Verification of the MusicBrainz proof-of-concept canonicalization core.

The development shallowly embeds the ranking/canonicalization code of
`src/app/search/page.tsx` (query builder, date normalizer, release
scorers, canonical release selector, recording ranker) and of the
recording-details page (`normalizePartialDate`, `getFirstRelease`,
`fetchRecording` status handling).

JavaScript strings are modelled as Lean `String`s.  The JavaScript
string primitives used by the code (`trim`, `toLowerCase`, `<`,
`includes`, `replaceAll`, `join`) are modelled character-wise on
`String.data` so that every definition is executable by kernel
reduction; `<` is lexicographic comparison of the character sequences.
JavaScript numbers occurring here are small exact integers and are
modelled as `Int`.  Optional / possibly-absent JSON fields are
modelled as `Option`.
-/

/-! ### Character-level models of the JavaScript string primitives -/

/-- Model of `String.prototype.trim`: drop whitespace from both ends
of the character list. -/
def trimChars (l : List Char) : List Char :=
  ((l.dropWhile Char.isWhitespace).reverse.dropWhile Char.isWhitespace).reverse

/-- Model of `value.trim()`. -/
def jsTrim (s : String) : String := ⟨trimChars s.data⟩

/-- Model of `value.toLowerCase()` (ASCII case folding). -/
def jsToLower (s : String) : String := ⟨s.data.map Char.toLower⟩

/-- Lexicographic comparison of character lists; model of the
JavaScript `<` operator on strings. -/
def listLtChar : List Char → List Char → Bool
  | [], [] => false
  | [], _ :: _ => true
  | _ :: _, [] => false
  | a :: as, b :: bs => if a < b then true else if b < a then false else listLtChar as bs

/-- Model of `a < b` on JavaScript strings. -/
def jsLt (a b : String) : Bool := listLtChar a.data b.data

/-- Model of `haystack.includes(needle)`: contiguous-substring test. -/
def strIncludes (haystack needle : String) : Bool :=
  decide (needle.data <:+: haystack.data)

/-- Model of `parts.join(sep)` on a JavaScript array of strings. -/
def joinWith (sep : String) : List String → String
  | [] => ""
  | x :: xs => xs.foldl (fun acc s => acc ++ sep ++ s) x

theorem listLtChar_irrefl (l : List Char) : listLtChar l l = false := by
  induction l with
  | nil => rfl
  | cons a as ih => simp [listLtChar, ih]

theorem listLtChar_asymm {a b : List Char} (h : listLtChar a b = true) :
    listLtChar b a = false := by
  induction a generalizing b with
  | nil =>
    cases b with
    | nil => simp [listLtChar] at h
    | cons x xs => simp [listLtChar]
  | cons x xs ih =>
    cases b with
    | nil => simp [listLtChar] at h
    | cons y ys =>
      simp only [listLtChar] at h ⊢
      rcases lt_trichotomy x y with hlt | heq | hgt
      · simp [hlt, lt_asymm hlt]
      · subst heq
        simp only [lt_irrefl, if_false] at h ⊢
        exact ih h
      · simp [hgt, lt_asymm hgt] at h

theorem listLtChar_trans {a b c : List Char} (h1 : listLtChar a b = true)
    (h2 : listLtChar b c = true) : listLtChar a c = true := by
  induction a generalizing b c with
  | nil =>
    cases c with
    | nil =>
      cases b with
      | nil => exact h1
      | cons y ys => simp [listLtChar] at h2
    | cons z zs => simp [listLtChar]
  | cons x xs ih =>
    cases b with
    | nil => simp [listLtChar] at h1
    | cons y ys =>
      cases c with
      | nil => simp [listLtChar] at h2
      | cons z zs =>
        simp only [listLtChar] at h1 h2 ⊢
        rcases lt_trichotomy x y with hxy | hxy | hxy
        · rcases lt_trichotomy y z with hyz | hyz | hyz
          · simp [lt_trans hxy hyz]
          · subst hyz; simp [hxy]
          · simp [hyz, lt_asymm hyz] at h2
        · subst hxy
          rcases lt_trichotomy x z with hxz | hxz | hxz
          · simp [hxz]
          · subst hxz
            simp only [lt_irrefl, if_false] at h1 h2 ⊢
            exact ih h1 h2
          · simp [hxz, lt_asymm hxz] at h2
        · simp [hxy, lt_asymm hxy] at h1

theorem listLtChar_eq_of_not {a b : List Char} (h1 : listLtChar a b = false)
    (h2 : listLtChar b a = false) : a = b := by
  induction a generalizing b with
  | nil =>
    cases b with
    | nil => rfl
    | cons y ys => simp [listLtChar] at h1
  | cons x xs ih =>
    cases b with
    | nil => simp [listLtChar] at h2
    | cons y ys =>
      simp only [listLtChar] at h1 h2
      rcases lt_trichotomy x y with hxy | hxy | hxy
      · simp [hxy] at h1
      · subst hxy
        simp only [lt_irrefl, if_false] at h1 h2
        rw [ih h1 h2]
      · simp [hxy, lt_asymm hxy] at h2

theorem jsLt_irrefl (a : String) : jsLt a a = false := listLtChar_irrefl a.data

theorem jsLt_asymm {a b : String} (h : jsLt a b = true) : jsLt b a = false :=
  listLtChar_asymm h

theorem jsLt_trans {a b c : String} (h1 : jsLt a b = true) (h2 : jsLt b c = true) :
    jsLt a c = true := listLtChar_trans h1 h2

theorem jsLt_eq_of_not {a b : String} (h1 : jsLt a b = false) (h2 : jsLt b a = false) :
    a = b := by
  cases a; cases b
  exact congrArg String.mk (listLtChar_eq_of_not h1 h2)

theorem jsLt_ne {a b : String} (h : jsLt a b = true) : a ≠ b := by
  intro he; subst he; rw [jsLt_irrefl] at h; exact Bool.false_ne_true h

theorem strIncludes_sandwich (a m b : String) : strIncludes (a ++ m ++ b) m = true := by
  simp only [strIncludes, decide_eq_true_eq, String.data_append]
  exact ⟨a.data, b.data, by simp⟩

theorem string_length_pos_iff {s : String} : 0 < s.length ↔ s ≠ "" := by
  cases s with
  | mk data =>
    cases data with
    | nil => simp [String.length]
    | cons c cs =>
      simp only [String.length, List.length_cons]
      constructor
      · intro _ he
        have : (String.mk (c :: cs)).data = ("" : String).data := congrArg String.data he
        simp at this
      · intro _; omega

/-! ### Data model (`src/app/search/page.tsx`) -/

/-- The `artist` sub-object of a MusicBrainz artist credit. -/
structure MusicBrainzArtist where
  id : Option String
  name : Option String
deriving DecidableEq

/-- Type `MusicBrainzArtistCredit`: a display name, optionally paired with a
referenced artist. -/
structure MusicBrainzArtistCredit where
  name : Option String
  artist : Option MusicBrainzArtist
deriving DecidableEq

/-- The `release-group` sub-object of a release.  Field `primaryType`
models `"primary-type"`, `secondaryTypes` models `"secondary-types"`. -/
structure MusicBrainzReleaseGroup where
  id : Option String
  title : Option String
  primaryType : Option String
  secondaryTypes : Option (List String)
  disambiguation : Option String
deriving DecidableEq

/-- Type `MusicBrainzRelease`: one element of a recording's `releases`
array.  Field `releaseGroup` models `"release-group"`. -/
structure MusicBrainzRelease where
  id : Option String
  title : Option String
  date : Option String
  status : Option String
  releaseGroup : Option MusicBrainzReleaseGroup
  disambiguation : Option String
deriving DecidableEq

/-- Type `MusicBrainzRecording` as returned by the recording search.  Field
`artistCredit` models `"artist-credit"`. -/
structure MusicBrainzRecording where
  id : String
  title : String
  artistCredit : Option (List MusicBrainzArtistCredit)
  length : Option Nat
  releases : Option (List MusicBrainzRelease)
deriving DecidableEq

/-! ### Pure helper functions of the search page -/

/-- Function `normalizePartialDate` (`page.tsx` lines 57-61): pad a 4- or
7-character date to the 10-character `YYYY-MM-DD` shape; return
anything else unchanged. -/
def normalizePartialDate (date : String) : String :=
  if date.length = 4 then date ++ "-00-00"
  else if date.length = 7 then date ++ "-00"
  else date

/-- Helper for `escapeQueryValue` (`page.tsx` lines 135-137): character-level model
of `value.replaceAll('"', "\\\"")`. -/
def escapeChars : List Char → List Char
  | [] => []
  | c :: cs => if c = '"' then '\\' :: '"' :: escapeChars cs else c :: escapeChars cs

/-- Function `escapeQueryValue`: backslash-escape every literal double quote. -/
def escapeQueryValue (value : String) : String := ⟨escapeChars value.data⟩

/-- Function `normalizeForCompare` (`page.tsx` lines 139-141):
`value.trim().toLowerCase()`. -/
def normalizeForCompare (value : String) : String := jsToLower (jsTrim value)

/-- Function `includesAny` (`page.tsx` lines 167-170): does the normalized
haystack contain one of the needles as a substring? -/
def includesAny (haystack : String) (needles : List String) : Bool :=
  needles.any fun n => strIncludes (normalizeForCompare haystack) n

/-- Model of the
`[ ... ].filter((v): v is string => typeof v === "string" && v.trim().length > 0).join(" ")`
pattern used to assemble the combined free text of a release. -/
def joinPresent (parts : List (Option String)) : String :=
  joinWith " " ((parts.filterMap id).filter fun s => 0 < (jsTrim s).length)

/-- Combined free text used by `getReleaseQualityPenalty`
(`page.tsx` lines 180-182): release title, release disambiguation,
group title, group disambiguation. -/
def qualityCombinedText (r : MusicBrainzRelease) : String :=
  joinPresent [r.title, r.disambiguation,
    r.releaseGroup.bind MusicBrainzReleaseGroup.title,
    r.releaseGroup.bind MusicBrainzReleaseGroup.disambiguation]

/-- The `reissueTerms` constant of `getReleaseQualityPenalty`. -/
def reissueTerms : List String :=
  ["remaster", "remastered", "deluxe", "expanded", "anniversary", "edition",
   "reissue", "bonus"]

/-- Function `getReleaseQualityPenalty` (`page.tsx` lines 172-212).  The
accumulating `penalty` variable is written as the sum of the
individual contributions, in source order; note that the `+100`
bootleg branch and the `+15` non-official branch form one
`if`/`else if` chain. -/
def getReleaseQualityPenalty (r : MusicBrainzRelease) : Int :=
  let status : String :=
    match r.status with
    | some s => normalizeForCompare s
    | none => ""
  let primaryType : String :=
    match r.releaseGroup.bind MusicBrainzReleaseGroup.primaryType with
    | some p => normalizeForCompare p
    | none => ""
  let secondaryTypes : List String :=
    match r.releaseGroup.bind MusicBrainzReleaseGroup.secondaryTypes with
    | some l => l.map normalizeForCompare
    | none => []
  (if status = "bootleg" then 100
   else if 0 < status.length ∧ status ≠ "official" then 15 else 0)
  + (if secondaryTypes.contains "compilation" then 25 else 0)
  + (if secondaryTypes.contains "live" then 25 else 0)
  + (if secondaryTypes.contains "remix" then 20 else 0)
  + (if secondaryTypes.contains "soundtrack" then 20 else 0)
  + (if includesAny (qualityCombinedText r) reissueTerms then 10 else 0)
  + (if 0 < primaryType.length ∧ ¬ (["album", "single", "ep"].contains primaryType)
     then 8 else 0)

/-- Combined free text used by `getPrimaryReleaseGroupPenalty`
(`page.tsx` lines 221-223): release title, release disambiguation,
group disambiguation. -/
def primacyCombinedText (r : MusicBrainzRelease) : String :=
  joinPresent [r.title, r.disambiguation,
    r.releaseGroup.bind MusicBrainzReleaseGroup.disambiguation]

/-- The `secondaryTerms` constant of `getPrimaryReleaseGroupPenalty`. -/
def secondaryTerms : List String :=
  ["remaster", "remastered", "deluxe", "expanded", "anniversary", "edition",
   "reissue"]

/-- Function `getPrimaryReleaseGroupPenalty` (`page.tsx` lines 214-228).  The
JavaScript guard `!group?.id` is truthiness on the optional id: it
holds when the group is absent, the id is absent, or the id is the
empty string. -/
def getPrimaryReleaseGroupPenalty (r : MusicBrainzRelease) : Int :=
  let gid : String :=
    match r.releaseGroup.bind MusicBrainzReleaseGroup.id with
    | some s => s
    | none => ""
  let secondaryTypes : List String :=
    match r.releaseGroup.bind MusicBrainzReleaseGroup.secondaryTypes with
    | some l => l
    | none => []
  (if gid = "" then 5 else 0)
  + (if 0 < secondaryTypes.length then 5 else 0)
  + (if includesAny (primacyCombinedText r) secondaryTerms then 5 else 0)

/-- The raw date of a release as used by the selector and the ranker
(`typeof r.date === "string" ? r.date.trim() : ""`). -/
def rawDateOf (r : MusicBrainzRelease) : String :=
  match r.date with
  | some s => jsTrim s
  | none => ""

/-- The per-release date key computed inside `pickCanonicalRelease`
(`page.tsx` lines 72-73): trimmed date normalized, or the maximal
sentinel `"9999-99-99"` when the date is absent or blank. -/
def dateKeyOf (r : MusicBrainzRelease) : String :=
  if 0 < (rawDateOf r).length then normalizePartialDate (rawDateOf r)
  else "9999-99-99"

/-- The running state of the `pickCanonicalRelease` loop: the current
best release and its three comparison keys. -/
structure PickState where
  best : MusicBrainzRelease
  bestDate : String
  bestQuality : Int
  bestPrimary : Int
deriving DecidableEq

/-- The `for (const r of releases)` loop of `pickCanonicalRelease`
(`page.tsx` lines 71-111), after the first iteration has initialized
the state from the first release. -/
def pickGo (st : PickState) : List MusicBrainzRelease → PickState
  | [] => st
  | r :: rs =>
    let dateKey := dateKeyOf r
    let quality := getReleaseQualityPenalty r
    let primary := getPrimaryReleaseGroupPenalty r
    if dateKey ≠ st.bestDate then
      (if jsLt dateKey st.bestDate then pickGo ⟨r, dateKey, quality, primary⟩ rs
       else pickGo st rs)
    else if quality ≠ st.bestQuality then
      (if quality < st.bestQuality then pickGo ⟨r, st.bestDate, quality, primary⟩ rs
       else pickGo st rs)
    else if primary ≠ st.bestPrimary then
      (if primary < st.bestPrimary then
        pickGo ⟨r, st.bestDate, st.bestQuality, primary⟩ rs
       else pickGo st rs)
    else pickGo st rs

/-- Function `pickCanonicalRelease` (`page.tsx` lines 63-114).  A `null` /
non-array `releases` value and the empty list yield `none`; otherwise
the loop runs, its first iteration taking the `!best` branch. -/
def pickCanonicalRelease (releases : Option (List MusicBrainzRelease)) :
    Option MusicBrainzRelease :=
  match releases with
  | none => none
  | some [] => none
  | some (r :: rs) =>
    some (pickGo ⟨r, dateKeyOf r, getReleaseQualityPenalty r,
      getPrimaryReleaseGroupPenalty r⟩ rs).best

/-- Function `isExactArtistMatch` (`page.tsx` lines 143-153).  `c?.name ??
c?.artist?.name` falls through only on absent values; the subsequent
`if (!name)` also rejects the present-but-empty name. -/
def isExactArtistMatch (recording : MusicBrainzRecording) (artist : String) : Bool :=
  let target := normalizeForCompare artist
  if target.length = 0 then false
  else
    match recording.artistCredit with
    | none => false
    | some credits =>
      if credits.length = 0 then false
      else credits.any fun c =>
        match c.name.orElse fun _ => c.artist.bind MusicBrainzArtist.name with
        | none => false
        | some n => if n = "" then false else normalizeForCompare n == target

/-- The loop of `getEarliestReleaseDate` (`page.tsx` lines 158-163):
releases with an absent or blank date are skipped, every other
normalized date lowers the running best when strictly smaller. -/
def earliestGo (best : String) : List MusicBrainzRelease → String
  | [] => best
  | r :: rs =>
    if (rawDateOf r).length = 0 then earliestGo best rs
    else
      if jsLt (normalizePartialDate (rawDateOf r)) best then
        earliestGo (normalizePartialDate (rawDateOf r)) rs
      else earliestGo best rs

/-- Function `getEarliestReleaseDate` (`page.tsx` lines 155-165). -/
def getEarliestReleaseDate (releases : Option (List MusicBrainzRelease)) : String :=
  match releases with
  | none => "9999-99-99"
  | some [] => "9999-99-99"
  | some l => earliestGo "9999-99-99" l

/-- One entry of the `scored` array built by `rankRecordings`
(`page.tsx` lines 236-261).  The source names the recording field
`rec`; that name is taken by the structure recursor in Lean. -/
structure ScoredRecording where
  recording : MusicBrainzRecording
  artistMatch : Bool
  earliestDate : String
  bestQuality : Int
  bestPrimaryPenalty : Int
deriving DecidableEq

/-- The `for (const r of releases)` minimum-penalty loop of
`rankRecordings` (`page.tsx` lines 244-249). -/
def bestPenaltiesGo (bq bp : Int) : List MusicBrainzRelease → Int × Int
  | [] => (bq, bp)
  | r :: rs =>
    let q := getReleaseQualityPenalty r
    let p := getPrimaryReleaseGroupPenalty r
    bestPenaltiesGo (if q < bq then q else bq) (if p < bp then p else bp) rs

/-- The element-wise scoring step of `rankRecordings` (`page.tsx`
lines 236-261), including the `9999 → 999` / `9999 → 99` sentinel
replacement for recordings whose release list contributed nothing. -/
def scoreRecording (artist : String) (rec : MusicBrainzRecording) : ScoredRecording :=
  let artistMatch := isExactArtistMatch rec artist
  let earliestDate := getEarliestReleaseDate rec.releases
  let releases : List MusicBrainzRelease :=
    match rec.releases with
    | some l => l
    | none => []
  let bp := bestPenaltiesGo 9999 9999 releases
  let bestQuality := if bp.1 = 9999 then 999 else bp.1
  let bestPrimaryPenalty := if bp.2 = 9999 then 99 else bp.2
  ⟨rec, artistMatch, earliestDate, bestQuality, bestPrimaryPenalty⟩

/-- Model of `a.localeCompare(b)` for the identifier strings used as
the final sort tie-break, as three-way lexicographic comparison. -/
def localeCompare (a b : String) : Int :=
  if jsLt a b then -1 else if jsLt b a then 1 else 0

/-- The comparator passed to `scored.sort` (`page.tsx` lines 263-269). -/
def compareScored (a b : ScoredRecording) : Int :=
  if a.artistMatch ≠ b.artistMatch then (if a.artistMatch then -1 else 1)
  else if a.earliestDate ≠ b.earliestDate then
    (if jsLt a.earliestDate b.earliestDate then -1 else 1)
  else if a.bestQuality ≠ b.bestQuality then a.bestQuality - b.bestQuality
  else if a.bestPrimaryPenalty ≠ b.bestPrimaryPenalty then
    a.bestPrimaryPenalty - b.bestPrimaryPenalty
  else localeCompare a.recording.id b.recording.id

/-- Relation stating that `a` sorts no later than `b` under the comparator:
`compareScored a b ≤ 0`. -/
def scoredLE (a b : ScoredRecording) : Bool := decide (compareScored a b ≤ 0)

/-- Function `rankRecordings` (`page.tsx` lines 230-272).  `Array.prototype.sort`
is required to be stable and is modelled by the stable `List.mergeSort`
with the comparator-induced order. -/
def rankRecordings (recordings : List MusicBrainzRecording)
    (artistQuery : String) : List MusicBrainzRecording :=
  let artist := jsTrim artistQuery
  let scored := recordings.map (scoreRecording artist)
  (scored.mergeSort scoredLE).map ScoredRecording.recording

/-- Function `buildRecordingSearchQuery` (`page.tsx` lines 274-292). -/
def buildRecordingSearchQuery (title artist : String) : String :=
  let t := jsTrim title
  let a := jsTrim artist
  let parts : List String :=
    (if 0 < t.length then ["recording:\"" ++ escapeQueryValue t ++ "\""] else [])
    ++ (if 0 < a.length then ["artist:\"" ++ escapeQueryValue a ++ "\""] else [])
  joinWith " AND " parts

/-! ### Data model and functions of the recording-details page
(`src/unnamed/part_000`) -/

/-- The release shape used by the details page (its own, smaller
`MusicBrainzRelease` type: id, title, date only). -/
structure MusicBrainzReleaseDetails where
  id : Option String
  title : Option String
  date : Option String
deriving DecidableEq

/-- The date-bearing test of `getFirstRelease` (`part_000` lines
50-52): the date is a present string whose trimmed form is
non-empty. -/
def dateBearing (r : MusicBrainzReleaseDetails) : Bool :=
  match r.date with
  | some d => 0 < (jsTrim d).length
  | none => false

/-- The comparison key used inside the `getFirstRelease` loop
(`part_000` lines 61-62): the raw (untrimmed) date normalized, or
`"9999-99-99"` when absent. -/
def detailsDateKey (r : MusicBrainzReleaseDetails) : String :=
  match r.date with
  | some d => normalizePartialDate d
  | none => "9999-99-99"

/-- The `for (const r of list)` loop of `getFirstRelease` (`part_000`
lines 56-64), keeping the first release attaining the minimal key. -/
def firstReleaseGo (best : MusicBrainzReleaseDetails) :
    List MusicBrainzReleaseDetails → MusicBrainzReleaseDetails
  | [] => best
  | r :: rs =>
    if jsLt (detailsDateKey r) (detailsDateKey best) then firstReleaseGo r rs
    else firstReleaseGo best rs

/-- Function `getFirstRelease` (`part_000` lines 48-67): restrict to the
date-bearing releases when any exist, then scan the whole candidate
list (including its head, compared against itself first) for the
release with the smallest normalized date key. -/
def getFirstRelease (releases : Option (List MusicBrainzReleaseDetails)) :
    Option MusicBrainzReleaseDetails :=
  match releases with
  | none => none
  | some [] => none
  | some l =>
    let withDates := l.filter dateBearing
    let list := if 0 < withDates.length then withDates else l
    match list with
    | [] => none
    | b :: _ => some (firstReleaseGo b list)

/-! ### Status handling of the two HTTP requests -/

/-- Model of WHATWG fetch `Response.ok`: status in the range 200-299. -/
def respOk (status : Nat) : Bool := decide (200 ≤ status ∧ status ≤ 299)

/-- The specialized 403 error message of `fetchRecording`
(`part_000` lines 88-92). -/
def fetchRecording403Message : String :=
  "Request failed (403). MusicBrainz requires a valid User-Agent. Set MUSICBRAINZ_USER_AGENT to something like: MyApp/1.0.0 (you@example.com)"

/-- The generic non-success error message of both requests. -/
def requestFailedMessage (status : Nat) : String :=
  "Request failed (" ++ toString status ++ ")"

/-- The `if (!res.ok)` status handling of `fetchRecording` (`part_000`
lines 87-94), as a pure function of the response status: `ok` on
success, otherwise the thrown error message. -/
def fetchRecordingStatusCheck (status : Nat) : Except String Unit :=
  if respOk status = true then Except.ok ()
  else if status = 403 then Except.error fetchRecording403Message
  else Except.error (requestFailedMessage status)

/-- The `if (!res.ok)` status handling of the search request in
`runSearch` (`page.tsx` lines 344-346). -/
def runSearchStatusCheck (status : Nat) : Except String Unit :=
  if respOk status = true then Except.ok ()
  else Except.error (requestFailedMessage status)

/-! ### C6: the date normalizer -/

/-- C6: `normalizePartialDate` is idempotent on every length-10 input
(such inputs are returned unchanged); length-4 inputs get `-00-00`
appended and length-7 inputs get `-00` appended, so 4-, 7- and
10-character inputs all yield a 10-character output; inputs of any
other length are returned unchanged. -/
theorem normalizePartialDate_spec (s : String) :
    (s.length = 10 → normalizePartialDate s = s ∧
      normalizePartialDate (normalizePartialDate s) = normalizePartialDate s) ∧
    (s.length = 4 → normalizePartialDate s = s ++ "-00-00") ∧
    (s.length = 7 → normalizePartialDate s = s ++ "-00") ∧
    (s.length = 4 ∨ s.length = 7 ∨ s.length = 10 →
      (normalizePartialDate s).length = 10) ∧
    (s.length ≠ 4 → s.length ≠ 7 → normalizePartialDate s = s) := by
  refine ⟨?_, ?_, ?_, ?_, ?_⟩
  · intro h
    have h1 : normalizePartialDate s = s := by simp [normalizePartialDate, h]
    exact ⟨h1, by rw [h1]; exact h1⟩
  · intro h; simp [normalizePartialDate, h]
  · intro h; simp [normalizePartialDate, h]
  · rintro (h | h | h) <;> simp [normalizePartialDate, h] <;> decide
  · intro h4 h7; simp [normalizePartialDate, h4, h7]

/-- Witness for C6 at the concrete year-only input `"1998"`. -/
theorem normalizePartialDate_spec_witness :
    ("1998" : String).length = 4 ∧ normalizePartialDate "1998" = "1998-00-00" :=
  ⟨by decide, (normalizePartialDate_spec "1998").2.1 (by decide)⟩

/-! ### C7: the query builder -/

theorem escapeChars_append (l1 l2 : List Char) :
    escapeChars (l1 ++ l2) = escapeChars l1 ++ escapeChars l2 := by
  induction l1 with
  | nil => rfl
  | cons c cs ih =>
    by_cases hc : c = '"' <;> simp [escapeChars, hc, ih]

theorem escapeChars_id {l : List Char} (h : ∀ c ∈ l, c ≠ '"') :
    escapeChars l = l := by
  induction l with
  | nil => rfl
  | cons c cs ih =>
    have hc : c ≠ '"' := h c (List.mem_cons_self c cs)
    simp [escapeChars, hc, ih fun x hx => h x (List.mem_cons_of_mem c hx)]

/-- C7: the query builder yields `""` when both fields are blank after
trimming, a single clause when exactly one field is non-blank, and the
two clauses joined by `" AND "` when both are; escaping backslash-escapes
each literal double quote and alters no other character; and the three
concrete examples of the specification hold. -/
theorem buildRecordingSearchQuery_spec :
    (∀ title artist, jsTrim title = "" → jsTrim artist = "" →
      buildRecordingSearchQuery title artist = "") ∧
    (∀ title artist, jsTrim title ≠ "" → jsTrim artist = "" →
      buildRecordingSearchQuery title artist =
        "recording:\"" ++ escapeQueryValue (jsTrim title) ++ "\"") ∧
    (∀ title artist, jsTrim title = "" → jsTrim artist ≠ "" →
      buildRecordingSearchQuery title artist =
        "artist:\"" ++ escapeQueryValue (jsTrim artist) ++ "\"") ∧
    (∀ title artist, jsTrim title ≠ "" → jsTrim artist ≠ "" →
      buildRecordingSearchQuery title artist =
        "recording:\"" ++ escapeQueryValue (jsTrim title) ++ "\"" ++ " AND " ++
        ("artist:\"" ++ escapeQueryValue (jsTrim artist) ++ "\"")) ∧
    (∀ v, (∀ c ∈ v.data, c ≠ '"') → escapeQueryValue v = v) ∧
    (∀ v w, escapeQueryValue (v ++ w) = escapeQueryValue v ++ escapeQueryValue w) ∧
    escapeQueryValue "\"" = "\\\"" ∧
    buildRecordingSearchQuery "" "" = "" ∧
    buildRecordingSearchQuery "Yesterday" "" = "recording:\"Yesterday\"" ∧
    buildRecordingSearchQuery "A \"B\"" "X" =
      "recording:\"A \\\"B\\\"\" AND artist:\"X\"" := by
  refine ⟨?_, ?_, ?_, ?_, ?_, ?_, by decide, by decide, by decide, by decide⟩
  · intro title artist ht ha
    simp [buildRecordingSearchQuery, ht, ha, joinWith]
  · intro title artist ht ha
    have ht' : 0 < (jsTrim title).length := string_length_pos_iff.mpr ht
    simp [buildRecordingSearchQuery, ht', ha, joinWith]
  · intro title artist ht ha
    have ha' : 0 < (jsTrim artist).length := string_length_pos_iff.mpr ha
    simp [buildRecordingSearchQuery, ht, ha', joinWith]
  · intro title artist ht ha
    have ht' : 0 < (jsTrim title).length := string_length_pos_iff.mpr ht
    have ha' : 0 < (jsTrim artist).length := string_length_pos_iff.mpr ha
    simp [buildRecordingSearchQuery, ht', ha', joinWith]
  · intro v hv
    cases v with
    | mk data => exact congrArg String.mk (escapeChars_id hv)
  · intro v w
    exact congrArg String.mk (escapeChars_append v.data w.data)

/-- Witness for C7: the non-blank/blank clause shape at concrete
inputs with surrounding whitespace. -/
theorem buildRecordingSearchQuery_spec_witness :
    jsTrim " Yesterday " ≠ "" ∧ jsTrim "  " = "" ∧
    buildRecordingSearchQuery " Yesterday " "  " =
      "recording:\"" ++ escapeQueryValue (jsTrim " Yesterday ") ++ "\"" :=
  ⟨by decide, by decide,
   buildRecordingSearchQuery_spec.2.1 " Yesterday " "  " (by decide) (by decide)⟩

/-! ### C1 and C2: the release scorers -/

/-- A release whose only metadata is the status `"bootleg"`. -/
def bootlegCexRelease : MusicBrainzRelease :=
  ⟨none, none, none, some "bootleg", none, none⟩

/-- A release whose only metadata is the status `"official"`. -/
def officialCexRelease : MusicBrainzRelease :=
  ⟨none, none, none, some "official", none, none⟩

/-- C1 counterexample: the claim predicts that a `"bootleg"` release
with no release-group and no reissue wording gets both the `+100` and
the `+15` contributions, totalling 115.  In the code the `+15` branch
is the `else if` of the bootleg branch, so the penalty is exactly 100,
not 115. -/
theorem getReleaseQualityPenalty_bootleg_cex :
    bootlegCexRelease.status = some "bootleg" ∧
    normalizeForCompare "bootleg" = "bootleg" ∧
    bootlegCexRelease.releaseGroup = none ∧
    includesAny (qualityCombinedText bootlegCexRelease) reissueTerms = false ∧
    getReleaseQualityPenalty bootlegCexRelease = 100 ∧
    getReleaseQualityPenalty bootlegCexRelease ≠ 115 := by decide

/-- C1 (amended): for every release whose status normalizes to
`"bootleg"`, the bootleg branch contributes `+100` and the `+15`
non-official branch is skipped (it is the `else` of the bootleg test);
a bootleg release with no release-group and no reissue wording in its
combined free text has quality penalty exactly 100. -/
theorem getReleaseQualityPenalty_bootleg (r : MusicBrainzRelease) (s : String)
    (hs : r.status = some s) (hb : normalizeForCompare s = "bootleg")
    (hg : r.releaseGroup = none)
    (hre : includesAny (qualityCombinedText r) reissueTerms = false) :
    getReleaseQualityPenalty r = 100 := by
  simp [getReleaseQualityPenalty, hs, hb, hg, hre]

/-- Witness for C1 at the concrete bootleg release. -/
theorem getReleaseQualityPenalty_bootleg_witness :
    normalizeForCompare "bootleg" = "bootleg" ∧
    getReleaseQualityPenalty bootlegCexRelease = 100 :=
  ⟨by decide,
   getReleaseQualityPenalty_bootleg bootlegCexRelease "bootleg" rfl (by decide)
     rfl (by decide)⟩

/-- C2 counterexample: the claim predicts that a release with status
`"official"`, no release-group and no reissue wording scores 0 on both
penalties.  The primacy scorer adds `+5` whenever `!group?.id` holds,
which is the case for a release without a release-group, so the
primacy penalty of such a release is 5, not 0. -/
theorem penalties_official_cex :
    officialCexRelease.status = some "official" ∧
    officialCexRelease.releaseGroup = none ∧
    includesAny (qualityCombinedText officialCexRelease) reissueTerms = false ∧
    includesAny (primacyCombinedText officialCexRelease) secondaryTerms = false ∧
    getReleaseQualityPenalty officialCexRelease = 0 ∧
    getPrimaryReleaseGroupPenalty officialCexRelease = 5 := by decide

/-- C2 (amended): both penalties are non-negative integers for every
release; a release with status `"official"`, no release-group and no
reissue wording has quality penalty 0, while its primacy penalty is 5
because the absent release-group triggers the missing-group-id
condition. -/
theorem penalties_nonneg_official :
    (∀ r : MusicBrainzRelease,
      0 ≤ getReleaseQualityPenalty r ∧ 0 ≤ getPrimaryReleaseGroupPenalty r) ∧
    (∀ (r : MusicBrainzRelease) (s : String), r.status = some s →
      normalizeForCompare s = "official" → r.releaseGroup = none →
      includesAny (qualityCombinedText r) reissueTerms = false →
      includesAny (primacyCombinedText r) secondaryTerms = false →
      getReleaseQualityPenalty r = 0 ∧ getPrimaryReleaseGroupPenalty r = 5) := by
  constructor
  · intro r
    constructor
    · simp only [getReleaseQualityPenalty]
      split_ifs <;> omega
    · simp only [getPrimaryReleaseGroupPenalty]
      split_ifs <;> omega
  · intro r s hs ho hg hq hp
    constructor
    · simp [getReleaseQualityPenalty, hs, ho, hg, hq]
    · simp [getPrimaryReleaseGroupPenalty, hg, hp]

/-- Witness for C2 at the concrete official release. -/
theorem penalties_nonneg_official_witness :
    normalizeForCompare "official" = "official" ∧
    getReleaseQualityPenalty officialCexRelease = 0 ∧
    getPrimaryReleaseGroupPenalty officialCexRelease = 5 :=
  ⟨by decide,
   penalties_nonneg_official.2 officialCexRelease "official" rfl (by decide) rfl
     (by decide) (by decide)⟩

/-! ### C8: error messages for non-success response statuses -/

set_option maxRecDepth 8192 in
/-- C8: for every non-success response status, `fetchRecording` throws
an error whose message embeds the decimal status, with a distinct,
actionable message naming `MUSICBRAINZ_USER_AGENT` in the 403 case,
and the search request of `runSearch` throws the generic message
embedding the status. -/
theorem statusCheck_error_spec (status : Nat) (h : respOk status = false) :
    (∃ msg, fetchRecordingStatusCheck status = Except.error msg ∧
      strIncludes msg (toString status) = true ∧
      (status = 403 → msg = fetchRecording403Message ∧
        msg ≠ requestFailedMessage 403 ∧
        strIncludes msg "MUSICBRAINZ_USER_AGENT" = true)) ∧
    (∃ msg, runSearchStatusCheck status = Except.error msg ∧
      strIncludes msg (toString status) = true) := by
  constructor
  · by_cases h403 : status = 403
    · subst h403
      refine ⟨fetchRecording403Message, rfl, by decide, fun _ => ⟨rfl, by decide, by decide⟩⟩
    · refine ⟨requestFailedMessage status, ?_, ?_, fun he => absurd he h403⟩
      · simp [fetchRecordingStatusCheck, h, h403]
      · exact strIncludes_sandwich "Request failed (" (toString status) ")"
  · refine ⟨requestFailedMessage status, ?_, ?_⟩
    · simp [runSearchStatusCheck, h]
    · exact strIncludes_sandwich "Request failed (" (toString status) ")"

set_option maxRecDepth 8192 in
/-- Witness for C8 at the concrete statuses 500 and 403. -/
theorem statusCheck_error_spec_witness :
    respOk 500 = false ∧ respOk 403 = false ∧
    (∃ msg, fetchRecordingStatusCheck 500 = Except.error msg ∧
      strIncludes msg (toString 500) = true ∧
      (500 = 403 → msg = fetchRecording403Message ∧
        msg ≠ requestFailedMessage 403 ∧
        strIncludes msg "MUSICBRAINZ_USER_AGENT" = true)) ∧
    (∃ msg, fetchRecordingStatusCheck 403 = Except.error msg ∧
      strIncludes msg (toString 403) = true ∧
      (403 = 403 → msg = fetchRecording403Message ∧
        msg ≠ requestFailedMessage 403 ∧
        strIncludes msg "MUSICBRAINZ_USER_AGENT" = true)) :=
  ⟨by decide, by decide,
   (statusCheck_error_spec 500 (by decide)).1,
   (statusCheck_error_spec 403 (by decide)).1⟩

/-! ### C10: blank dates are sentinel dates -/

/-- C10: in `pickCanonicalRelease` and `getEarliestReleaseDate` a
release whose date is present but blank gets the maximal date key
`"9999-99-99"` exactly like a release with an absent date: it never
lowers a recording's earliest-date key, and it loses the date
comparison in `pickCanonicalRelease` against any release whose date
key is strictly below `"9999-99-99"`. -/
theorem blank_date_sentinel
    (r r' : MusicBrainzRelease) (rs : List MusicBrainzRelease)
    (hblank : r.date = none ∨ ∃ s, r.date = some s ∧ jsTrim s = "") :
    dateKeyOf r = "9999-99-99" ∧
    getEarliestReleaseDate (some (r :: rs)) = getEarliestReleaseDate (some rs) ∧
    (jsLt (dateKeyOf r') "9999-99-99" = true →
      pickCanonicalRelease (some [r, r']) = some r') := by
  have hraw : rawDateOf r = "" := by
    rcases hblank with h | ⟨s, hs, hb⟩
    · simp [rawDateOf, h]
    · simp [rawDateOf, hs, hb]
  have hkey : dateKeyOf r = "9999-99-99" := by
    simp [dateKeyOf, hraw]
  refine ⟨hkey, ?_, ?_⟩
  · have hskip : ∀ b, earliestGo b (r :: rs) = earliestGo b rs := by
      intro b
      simp [earliestGo, hraw]
    have hun : getEarliestReleaseDate (some (r :: rs)) =
        earliestGo "9999-99-99" (r :: rs) := rfl
    rw [hun, hskip]
    cases rs with
    | nil => rfl
    | cons x xs => rfl
  · intro hlt
    have hne : dateKeyOf r' ≠ "9999-99-99" := jsLt_ne hlt
    simp [pickCanonicalRelease, pickGo, hkey, hne, hlt]

/-- A release whose date is present but whitespace-only. -/
def blankDateRelease : MusicBrainzRelease := ⟨none, none, some "   ", none, none, none⟩

/-- A release dated `"1999"`. -/
def datedRelease : MusicBrainzRelease := ⟨none, none, some "1999", none, none, none⟩

/-- Witness for C10 at a whitespace-only date against a year-dated
release. -/
theorem blank_date_sentinel_witness :
    (blankDateRelease.date = none ∨
      ∃ s, blankDateRelease.date = some s ∧ jsTrim s = "") ∧
    jsLt (dateKeyOf datedRelease) "9999-99-99" = true ∧
    dateKeyOf blankDateRelease = "9999-99-99" ∧
    pickCanonicalRelease (some [blankDateRelease, datedRelease]) = some datedRelease :=
  ⟨Or.inr ⟨"   ", rfl, by decide⟩, by decide,
   (blank_date_sentinel blankDateRelease datedRelease []
     (Or.inr ⟨"   ", rfl, by decide⟩)).1,
   (blank_date_sentinel blankDateRelease datedRelease []
     (Or.inr ⟨"   ", rfl, by decide⟩)).2.2 (by decide)⟩

/-! ### C9: `getFirstRelease` of the details page -/

/-- Predicate stating that `m` is the first element of `l` attaining the minimal
`detailsDateKey`: `l` splits around `m`, everything before `m` has a
strictly larger key, and nothing in `l` has a strictly smaller key. -/
def DetailsFirstMin (l : List MusicBrainzReleaseDetails)
    (m : MusicBrainzReleaseDetails) : Prop :=
  ∃ l₁ l₂, l = l₁ ++ m :: l₂ ∧
    (∀ x ∈ l₁, jsLt (detailsDateKey m) (detailsDateKey x) = true) ∧
    ∀ x ∈ l, jsLt (detailsDateKey x) (detailsDateKey m) = false

theorem firstReleaseGo_spec (l : List MusicBrainzReleaseDetails)
    (b : MusicBrainzReleaseDetails) : DetailsFirstMin (b :: l) (firstReleaseGo b l) := by
  induction l generalizing b with
  | nil =>
    refine ⟨[], [], rfl, by simp, ?_⟩
    intro x hx
    rw [List.mem_singleton] at hx
    subst hx
    exact jsLt_irrefl _
  | cons r rs ih =>
    by_cases hlt : jsLt (detailsDateKey r) (detailsDateKey b) = true
    · have hgo : firstReleaseGo b (r :: rs) = firstReleaseGo r rs := by
        simp [firstReleaseGo, hlt]
      rw [hgo]
      obtain ⟨l₁, l₂, heq, hpre, hmin⟩ := ih r
      have hmr : jsLt (detailsDateKey r) (detailsDateKey (firstReleaseGo r rs)) = false :=
        hmin r (List.mem_cons_self r rs)
      have hmb : jsLt (detailsDateKey (firstReleaseGo r rs)) (detailsDateKey b) = true := by
        by_cases hmlt : jsLt (detailsDateKey (firstReleaseGo r rs)) (detailsDateKey r) = true
        · exact jsLt_trans hmlt hlt
        · rw [jsLt_eq_of_not (Bool.eq_false_iff.mpr hmlt) hmr]
          exact hlt
      refine ⟨b :: l₁, l₂, by rw [heq]; rfl, ?_, ?_⟩
      · intro x hx
        rcases List.mem_cons.mp hx with hx | hx
        · subst hx; exact hmb
        · exact hpre x hx
      · intro x hx
        rcases List.mem_cons.mp hx with hx | hx
        · subst hx; exact jsLt_asymm hmb
        · exact hmin x hx
    · have hgo : firstReleaseGo b (r :: rs) = firstReleaseGo b rs := by
        simp [firstReleaseGo, hlt]
      rw [hgo]
      obtain ⟨l₁, l₂, heq, hpre, hmin⟩ := ih b
      have hge : jsLt (detailsDateKey r) (detailsDateKey b) = false :=
        Bool.eq_false_iff.mpr hlt
      have hbm : jsLt (detailsDateKey b) (detailsDateKey (firstReleaseGo b rs)) = false :=
        hmin b (List.mem_cons_self b rs)
      have hrm : jsLt (detailsDateKey r) (detailsDateKey (firstReleaseGo b rs)) = false := by
        by_cases hbr : jsLt (detailsDateKey b) (detailsDateKey r) = true
        · by_contra hc
          rw [Bool.not_eq_false] at hc
          exact absurd (jsLt_trans hbr hc) (Bool.eq_false_iff.mp hbm)
        · rw [jsLt_eq_of_not hge (Bool.eq_false_iff.mpr hbr)]
          exact hbm
      cases l₁ with
      | nil =>
        simp only [List.nil_append, List.cons.injEq] at heq
        obtain ⟨hb, hrs⟩ := heq
        refine ⟨[], r :: rs, by rw [List.nil_append, ← hb], by simp, ?_⟩
        intro x hx
        rcases List.mem_cons.mp hx with hx | hx
        · subst hx; exact hbm
        rcases List.mem_cons.mp hx with hx | hx
        · subst hx; exact hrm
        · exact hmin x (List.mem_cons_of_mem b hx)
      | cons c l₁' =>
        simp only [List.cons_append, List.cons.injEq] at heq
        obtain ⟨hb, hrs⟩ := heq
        have hmbs : jsLt (detailsDateKey (firstReleaseGo b rs)) (detailsDateKey b) = true := by
          have hc := hpre c (List.mem_cons_self c l₁')
          rw [← hb] at hc
          exact hc
        refine ⟨b :: r :: l₁', l₂, by rw [List.cons_append, List.cons_append, ← hrs], ?_, ?_⟩
        · intro x hx
          rcases List.mem_cons.mp hx with hx | hx
          · subst hx; exact hmbs
          rcases List.mem_cons.mp hx with hx | hx
          · rw [hx]
            by_cases hbr : jsLt (detailsDateKey b) (detailsDateKey r) = true
            · exact jsLt_trans hmbs hbr
            · rw [jsLt_eq_of_not hge (Bool.eq_false_iff.mpr hbr)]
              exact hmbs
          · exact hpre x (List.mem_cons_of_mem c hx)
        · intro x hx
          rcases List.mem_cons.mp hx with hx | hx
          · subst hx; exact jsLt_asymm hmbs
          rcases List.mem_cons.mp hx with hx | hx
          · subst hx; exact hrm
          · exact hmin x (List.mem_cons_of_mem b hx)

theorem firstReleaseGo_cons_self (b : MusicBrainzReleaseDetails)
    (l : List MusicBrainzReleaseDetails) :
    firstReleaseGo b (b :: l) = firstReleaseGo b l := by
  simp [firstReleaseGo, jsLt_irrefl]

/-- A details release with no metadata at all. -/
def detailsNoDate : MusicBrainzReleaseDetails := ⟨none, none, none⟩

/-- A details release whose date is present but empty. -/
def detailsEmptyDate : MusicBrainzReleaseDetails := ⟨none, none, some ""⟩

/-- C9 counterexample: the claim predicts that when no release has a
non-blank date, the first release of the list is returned.  On
`[detailsNoDate, detailsEmptyDate]` no release is date-bearing, yet
the loop still compares the raw dates: the empty date normalizes to
`""`, which sorts below the absent-date sentinel `"9999-99-99"`, so
the second release is returned. -/
theorem getFirstRelease_cex :
    [detailsNoDate, detailsEmptyDate].filter dateBearing = [] ∧
    getFirstRelease (some [detailsNoDate, detailsEmptyDate]) = some detailsEmptyDate ∧
    detailsEmptyDate ≠ detailsNoDate := by decide

theorem getFirstRelease_eq_of_filter_cons {l : List MusicBrainzReleaseDetails}
{w : MusicBrainzReleaseDetails} {ws : List MusicBrainzReleaseDetails}
(hw : l.filter dateBearing = w :: ws) (hl : l ≠ []) :
    getFirstRelease (some l) = some (firstReleaseGo w ws) := by
  rcases l with _ | ⟨x, xs⟩
  · exact absurd rfl hl
  · simp [getFirstRelease, hw, firstReleaseGo_cons_self]

theorem getFirstRelease_eq_of_filter_nil {l : List MusicBrainzReleaseDetails}
(hw : l.filter dateBearing = []) {x : MusicBrainzReleaseDetails}
{xs : List MusicBrainzReleaseDetails} (hl : l = x :: xs) :
    getFirstRelease (some l) = some (firstReleaseGo x xs) := by
  subst hl
  simp [getFirstRelease, hw, firstReleaseGo_cons_self]

/-- C9 (amended): `getFirstRelease` returns `none` exactly on an
absent or empty list.  When some release is date-bearing (present,
non-blank date), the winner is date-bearing and is the first
release of the date-bearing sublist attaining the minimal
normalized date key.  When no release is date-bearing, the winner is
the first release of the whole list attaining the minimal key of the
raw dates (absent dates counting as `"9999-99-99"`); in particular
when every date is absent this is the first release, but a
present-and-blank date is still compared verbatim. -/
theorem getFirstRelease_spec :
    (∀ rl, getFirstRelease rl = none ↔ (rl = none ∨ rl = some [])) ∧
    (∀ l, l ≠ [] →
      (l.filter dateBearing ≠ [] →
        ∃ m, getFirstRelease (some l) = some m ∧ dateBearing m = true ∧
          DetailsFirstMin (l.filter dateBearing) m) ∧
      (l.filter dateBearing = [] →
        ∃ m, getFirstRelease (some l) = some m ∧ DetailsFirstMin l m)) := by
  constructor
  · intro rl
    match rl with
    | none => simp [getFirstRelease]
    | some [] => simp [getFirstRelease]
    | some (x :: xs) =>
      rcases hw : (x :: xs).filter dateBearing with _ | ⟨w, ws⟩
      · rw [getFirstRelease_eq_of_filter_nil hw rfl]
        simp
      · rw [getFirstRelease_eq_of_filter_cons hw (List.cons_ne_nil x xs)]
        simp
  · intro l hl
    constructor
    · intro hwne
      rcases hw : l.filter dateBearing with _ | ⟨w, ws⟩
      · exact absurd hw hwne
      refine ⟨firstReleaseGo w ws, getFirstRelease_eq_of_filter_cons hw hl, ?_, ?_⟩
      · obtain ⟨l₁, l₂, heq, -, -⟩ := firstReleaseGo_spec ws w
        have hmem : firstReleaseGo w ws ∈ w :: ws := by
          rw [heq]
          exact List.mem_append.mpr (Or.inr (List.mem_cons_self _ l₂))
        rw [← hw] at hmem
        exact (List.mem_filter.mp hmem).2
      · exact firstReleaseGo_spec ws w
    · intro hw
      rcases hll : l with _ | ⟨x, xs⟩
      · exact absurd hll hl
      exact ⟨firstReleaseGo x xs, getFirstRelease_eq_of_filter_nil (hll ▸ hw) rfl,
        firstReleaseGo_spec xs x⟩

/-- A details release dated 2003. -/
def detailsDated2003 : MusicBrainzReleaseDetails := ⟨none, some "B", some "2003"⟩

/-- A details release dated 1999-05-01. -/
def detailsDated1999 : MusicBrainzReleaseDetails := ⟨none, some "A", some "1999-05-01"⟩

/-- Witness for C9 on a concrete two-element, date-bearing list. -/
theorem getFirstRelease_spec_witness :
    ([detailsDated2003, detailsDated1999] : List MusicBrainzReleaseDetails) ≠ [] ∧
    [detailsDated2003, detailsDated1999].filter dateBearing ≠ [] ∧
    ∃ m, getFirstRelease (some [detailsDated2003, detailsDated1999]) = some m ∧
      dateBearing m = true ∧
      DetailsFirstMin ([detailsDated2003, detailsDated1999].filter dateBearing) m :=
  ⟨by decide, by decide,
   (getFirstRelease_spec.2 [detailsDated2003, detailsDated1999] (by decide)).1 (by decide)⟩

/-! ### C3: the canonical release selector -/

/-- The triple of comparison keys of a release, in tie-break order:
normalized date key, quality penalty, release-group primacy penalty. -/
def releaseKey (r : MusicBrainzRelease) : String × Int × Int :=
  (dateKeyOf r, getReleaseQualityPenalty r, getPrimaryReleaseGroupPenalty r)

/-- Lexicographic strict order on key triples: an earlier date key wins
outright, quality decides a date tie, primacy decides a date-and-quality
tie. -/
abbrev KeyLt (a b : String × Int × Int) : Prop :=
  jsLt a.1 b.1 = true ∨
    (a.1 = b.1 ∧ (a.2.1 < b.2.1 ∨ (a.2.1 = b.2.1 ∧ a.2.2 < b.2.2)))

theorem KeyLt_irrefl (a : String × Int × Int) : ¬ KeyLt a a := by
  rintro (h | ⟨-, h | ⟨-, h⟩⟩)
  · rw [jsLt_irrefl] at h
    exact Bool.false_ne_true h
  · omega
  · omega

theorem KeyLt_trans {a b c : String × Int × Int} (h1 : KeyLt a b) (h2 : KeyLt b c) :
    KeyLt a c := by
  rcases h1 with h1 | ⟨he1, h1⟩
  · rcases h2 with h2 | ⟨he2, h2⟩
    · exact Or.inl (jsLt_trans h1 h2)
    · exact Or.inl (he2 ▸ h1)
  · rcases h2 with h2 | ⟨he2, h2⟩
    · exact Or.inl (he1 ▸ h2)
    · refine Or.inr ⟨he1.trans he2, ?_⟩
      omega

theorem KeyLt_asymm {a b : String × Int × Int} (h : KeyLt a b) : ¬ KeyLt b a := by
  intro h'
  exact KeyLt_irrefl a (KeyLt_trans h h')

theorem KeyLt_eq_of_not {a b : String × Int × Int} (h1 : ¬ KeyLt a b)
    (h2 : ¬ KeyLt b a) : a = b := by
  obtain ⟨a1, a2, a3⟩ := a
  obtain ⟨b1, b2, b3⟩ := b
  simp only [KeyLt] at h1 h2
  have hd1 : jsLt a1 b1 = false := by
    cases hb : jsLt a1 b1
    · rfl
    · exact absurd (Or.inl hb) h1
  have hd2 : jsLt b1 a1 = false := by
    cases hb : jsLt b1 a1
    · rfl
    · exact absurd (Or.inl hb) h2
  have he : a1 = b1 := jsLt_eq_of_not hd1 hd2
  subst he
  have hn1 : ¬ (a2 < b2 ∨ (a2 = b2 ∧ a3 < b3)) := fun h => h1 (Or.inr ⟨rfl, h⟩)
  have hn2 : ¬ (b2 < a2 ∨ (b2 = a2 ∧ b3 < a3)) := fun h => h2 (Or.inr ⟨rfl, h⟩)
  have h2eq : a2 = b2 ∧ a3 = b3 := by
    constructor <;> omega
  simp [h2eq.1, h2eq.2]

/-- The selection step of the `pickCanonicalRelease` loop, expressed
on whole key triples: the candidate replaces the running best exactly
when its key triple is lexicographically smaller. -/
def fmGo (best : MusicBrainzRelease) : List MusicBrainzRelease → MusicBrainzRelease
  | [] => best
  | r :: rs => if KeyLt (releaseKey r) (releaseKey best) then fmGo r rs else fmGo best rs

theorem pickGo_best_eq (l : List MusicBrainzRelease) : ∀ st : PickState,
    st.bestDate = dateKeyOf st.best →
    st.bestQuality = getReleaseQualityPenalty st.best →
    st.bestPrimary = getPrimaryReleaseGroupPenalty st.best →
    (pickGo st l).best = fmGo st.best l := by
  induction l with
  | nil => intro st _ _ _; rfl
  | cons r rs ih =>
    intro st hd hq hp
    simp only [pickGo, fmGo]
    rw [hd, hq, hp]
    by_cases h1 : dateKeyOf r = dateKeyOf st.best
    · rw [if_neg (not_not_intro h1)]
      by_cases h2 : getReleaseQualityPenalty r = getReleaseQualityPenalty st.best
      · rw [if_neg (not_not_intro h2)]
        by_cases h3 : getPrimaryReleaseGroupPenalty r =
            getPrimaryReleaseGroupPenalty st.best
        · rw [if_neg (not_not_intro h3)]
          have hnk : ¬ KeyLt (releaseKey r) (releaseKey st.best) := by
            rintro (h | ⟨-, h | ⟨-, h⟩⟩)
            · have h' : jsLt (dateKeyOf r) (dateKeyOf st.best) = true := h
              rw [h1, jsLt_irrefl] at h'
              exact Bool.false_ne_true h'
            · exact absurd (show getReleaseQualityPenalty r <
                getReleaseQualityPenalty st.best from h) (by omega)
            · exact absurd (show getPrimaryReleaseGroupPenalty r <
                getPrimaryReleaseGroupPenalty st.best from h) (by omega)
          rw [if_neg hnk]
          exact ih st hd hq hp
        · rw [if_pos h3]
          by_cases h4 : getPrimaryReleaseGroupPenalty r <
              getPrimaryReleaseGroupPenalty st.best
          · rw [if_pos h4]
            have hk : KeyLt (releaseKey r) (releaseKey st.best) :=
              Or.inr ⟨h1, Or.inr ⟨h2, h4⟩⟩
            rw [if_pos hk]
            exact ih ⟨r, dateKeyOf st.best, getReleaseQualityPenalty st.best,
              getPrimaryReleaseGroupPenalty r⟩ h1.symm h2.symm rfl
          · rw [if_neg h4]
            have hnk : ¬ KeyLt (releaseKey r) (releaseKey st.best) := by
              rintro (h | ⟨-, h | ⟨-, h⟩⟩)
              · have h' : jsLt (dateKeyOf r) (dateKeyOf st.best) = true := h
                rw [h1, jsLt_irrefl] at h'
                exact Bool.false_ne_true h'
              · exact absurd (show getReleaseQualityPenalty r <
                  getReleaseQualityPenalty st.best from h) (by omega)
              · exact absurd (show getPrimaryReleaseGroupPenalty r <
                  getPrimaryReleaseGroupPenalty st.best from h) h4
            rw [if_neg hnk]
            exact ih st hd hq hp
      · rw [if_pos h2]
        by_cases h4 : getReleaseQualityPenalty r < getReleaseQualityPenalty st.best
        · rw [if_pos h4]
          have hk : KeyLt (releaseKey r) (releaseKey st.best) :=
            Or.inr ⟨h1, Or.inl h4⟩
          rw [if_pos hk]
          exact ih ⟨r, dateKeyOf st.best, getReleaseQualityPenalty r,
            getPrimaryReleaseGroupPenalty r⟩ h1.symm rfl rfl
        · rw [if_neg h4]
          have hnk : ¬ KeyLt (releaseKey r) (releaseKey st.best) := by
            rintro (h | ⟨-, h | ⟨heq, -⟩⟩)
            · have h' : jsLt (dateKeyOf r) (dateKeyOf st.best) = true := h
              rw [h1, jsLt_irrefl] at h'
              exact Bool.false_ne_true h'
            · exact absurd (show getReleaseQualityPenalty r <
                getReleaseQualityPenalty st.best from h) h4
            · exact absurd (show getReleaseQualityPenalty r =
                getReleaseQualityPenalty st.best from heq) h2
          rw [if_neg hnk]
          exact ih st hd hq hp
    · rw [if_pos h1]
      by_cases h5 : jsLt (dateKeyOf r) (dateKeyOf st.best) = true
      · rw [if_pos h5]
        have hk : KeyLt (releaseKey r) (releaseKey st.best) := Or.inl h5
        rw [if_pos hk]
        exact ih ⟨r, dateKeyOf r, getReleaseQualityPenalty r,
          getPrimaryReleaseGroupPenalty r⟩ rfl rfl rfl
      · rw [if_neg h5]
        have hnk : ¬ KeyLt (releaseKey r) (releaseKey st.best) := by
          rintro (h | ⟨heq, -⟩)
          · exact h5 h
          · exact h1 heq
        rw [if_neg hnk]
        exact ih st hd hq hp

theorem pickCanonicalRelease_eq (r : MusicBrainzRelease)
    (rs : List MusicBrainzRelease) :
    pickCanonicalRelease (some (r :: rs)) = some (fmGo r rs) := by
  simp only [pickCanonicalRelease]
  rw [pickGo_best_eq rs ⟨r, dateKeyOf r, getReleaseQualityPenalty r,
    getPrimaryReleaseGroupPenalty r⟩ rfl rfl rfl]

/-- Predicate stating that `m` is the first element of `l` attaining the lexicographically
minimal key triple: `l` splits around `m`, everything strictly before
`m` has a strictly larger key triple, and no element of `l` has a
strictly smaller one. -/
def ReleaseFirstMin (l : List MusicBrainzRelease) (m : MusicBrainzRelease) : Prop :=
  ∃ l₁ l₂, l = l₁ ++ m :: l₂ ∧
    (∀ x ∈ l₁, KeyLt (releaseKey m) (releaseKey x)) ∧
    ∀ x ∈ l, ¬ KeyLt (releaseKey x) (releaseKey m)

theorem fmGo_spec (l : List MusicBrainzRelease) (b : MusicBrainzRelease) :
    ReleaseFirstMin (b :: l) (fmGo b l) := by
  induction l generalizing b with
  | nil =>
    refine ⟨[], [], rfl, by simp, ?_⟩
    intro x hx
    rw [List.mem_singleton] at hx
    subst hx
    exact KeyLt_irrefl _
  | cons r rs ih =>
    by_cases hlt : KeyLt (releaseKey r) (releaseKey b)
    · have hgo : fmGo b (r :: rs) = fmGo r rs := by
        simp [fmGo, hlt]
      rw [hgo]
      obtain ⟨l₁, l₂, heq, hpre, hmin⟩ := ih r
      have hmr : ¬ KeyLt (releaseKey r) (releaseKey (fmGo r rs)) :=
        hmin r (List.mem_cons_self r rs)
      have hmb : KeyLt (releaseKey (fmGo r rs)) (releaseKey b) := by
        by_cases hmlt : KeyLt (releaseKey (fmGo r rs)) (releaseKey r)
        · exact KeyLt_trans hmlt hlt
        · rw [KeyLt_eq_of_not hmlt hmr]
          exact hlt
      refine ⟨b :: l₁, l₂, by rw [heq]; rfl, ?_, ?_⟩
      · intro x hx
        rcases List.mem_cons.mp hx with hx | hx
        · subst hx; exact hmb
        · exact hpre x hx
      · intro x hx
        rcases List.mem_cons.mp hx with hx | hx
        · subst hx; exact KeyLt_asymm hmb
        · exact hmin x hx
    · have hgo : fmGo b (r :: rs) = fmGo b rs := by
        simp [fmGo, hlt]
      rw [hgo]
      obtain ⟨l₁, l₂, heq, hpre, hmin⟩ := ih b
      have hbm : ¬ KeyLt (releaseKey b) (releaseKey (fmGo b rs)) :=
        hmin b (List.mem_cons_self b rs)
      have hrm : ¬ KeyLt (releaseKey r) (releaseKey (fmGo b rs)) := by
        intro hc
        by_cases hbr : KeyLt (releaseKey b) (releaseKey r)
        · exact hbm (KeyLt_trans hbr hc)
        · rw [KeyLt_eq_of_not hlt hbr] at hc
          exact hbm hc
      cases l₁ with
      | nil =>
        simp only [List.nil_append, List.cons.injEq] at heq
        obtain ⟨hb, hrs⟩ := heq
        refine ⟨[], r :: rs, by rw [List.nil_append, ← hb], by simp, ?_⟩
        intro x hx
        rcases List.mem_cons.mp hx with hx | hx
        · subst hx; exact hbm
        rcases List.mem_cons.mp hx with hx | hx
        · subst hx; exact hrm
        · exact hmin x (List.mem_cons_of_mem b hx)
      | cons c l₁' =>
        simp only [List.cons_append, List.cons.injEq] at heq
        obtain ⟨hb, hrs⟩ := heq
        have hmbs : KeyLt (releaseKey (fmGo b rs)) (releaseKey b) := by
          have hc := hpre c (List.mem_cons_self c l₁')
          rw [← hb] at hc
          exact hc
        refine ⟨b :: r :: l₁', l₂,
          by rw [List.cons_append, List.cons_append, ← hrs], ?_, ?_⟩
        · intro x hx
          rcases List.mem_cons.mp hx with hx | hx
          · rw [hx]; exact hmbs
          rcases List.mem_cons.mp hx with hx | hx
          · rw [hx]
            by_cases hbr : KeyLt (releaseKey b) (releaseKey r)
            · exact KeyLt_trans hmbs hbr
            · rw [KeyLt_eq_of_not hlt hbr]
              exact hmbs
          · exact hpre x (List.mem_cons_of_mem c hx)
        · intro x hx
          rcases List.mem_cons.mp hx with hx | hx
          · subst hx; exact KeyLt_asymm hmbs
          rcases List.mem_cons.mp hx with hx | hx
          · subst hx; exact hrm
          · exact hmin x (List.mem_cons_of_mem b hx)

theorem releaseFirstMin_mem {l : List MusicBrainzRelease} {m : MusicBrainzRelease}
    (h : ReleaseFirstMin l m) : m ∈ l := by
  obtain ⟨l₁, l₂, heq, -, -⟩ := h
  rw [heq]
  exact List.mem_append.mpr (Or.inr (List.mem_cons_self _ l₂))

theorem key_unique_of_pairwise {l : List MusicBrainzRelease}
    (hpw : l.Pairwise fun a b => releaseKey a ≠ releaseKey b) :
    ∀ a ∈ l, ∀ b ∈ l, releaseKey a = releaseKey b → a = b := by
  induction l with
  | nil => intro a ha; exact absurd ha (List.not_mem_nil a)
  | cons x xs ih =>
    rw [List.pairwise_cons] at hpw
    intro a ha b hb heq
    rcases List.mem_cons.mp ha with ha1 | ha2
    · rcases List.mem_cons.mp hb with hb1 | hb2
      · rw [ha1, hb1]
      · rw [ha1] at heq
        exact absurd heq (hpw.1 b hb2)
    · rcases List.mem_cons.mp hb with hb1 | hb2
      · rw [hb1] at heq
        exact absurd heq.symm (hpw.1 a ha2)
      · exact ih hpw.2 a ha2 b hb2 heq

/-- C3: `pickCanonicalRelease` yields `none` exactly on an absent or
empty list; on a non-empty list it selects the first release attaining
the lexicographically minimal key triple (date key ascending, then
quality penalty, then primacy penalty) — a strictly earlier date key
wins outright, quality decides only date ties, primacy decides only
date-and-quality ties, and among full key ties the first release in
input order wins; the function is deterministic, and reordering a list
whose key triples are pairwise distinct does not change the winner. -/
theorem pickCanonicalRelease_spec :
    pickCanonicalRelease none = none ∧
    (∀ l, pickCanonicalRelease (some l) = none ↔ l = []) ∧
    (∀ l, pickCanonicalRelease (some l) = pickCanonicalRelease (some l)) ∧
    (∀ l m, pickCanonicalRelease (some l) = some m → ReleaseFirstMin l m) ∧
    (∀ l l', l.Perm l' →
      (l.Pairwise fun a b => releaseKey a ≠ releaseKey b) →
      pickCanonicalRelease (some l) = pickCanonicalRelease (some l')) := by
  refine ⟨rfl, ?_, fun l => rfl, ?_, ?_⟩
  · intro l
    cases l with
    | nil => simp [pickCanonicalRelease]
    | cons r rs => rw [pickCanonicalRelease_eq]; simp
  · intro l m h
    cases l with
    | nil => simp [pickCanonicalRelease] at h
    | cons r rs =>
      rw [pickCanonicalRelease_eq] at h
      obtain rfl : fmGo r rs = m := Option.some.injEq _ _ ▸ h
      exact fmGo_spec rs r
  · intro l l' hperm hpw
    cases l with
    | nil =>
      have : l' = [] := hperm.symm.eq_nil
      rw [this]
    | cons r rs =>
      cases l' with
      | nil => exact absurd hperm.eq_nil (List.cons_ne_nil r rs)
      | cons r' rs' =>
        rw [pickCanonicalRelease_eq, pickCanonicalRelease_eq]
        have s1 := fmGo_spec rs r
        have s2 := fmGo_spec rs' r'
        have hm1 : fmGo r rs ∈ r :: rs := releaseFirstMin_mem s1
        have hm2 : fmGo r' rs' ∈ r :: rs := hperm.mem_iff.mpr (releaseFirstMin_mem s2)
        obtain ⟨-, -, -, -, hmin1⟩ := s1
        obtain ⟨-, -, -, -, hmin2⟩ := s2
        have hk1 : ¬ KeyLt (releaseKey (fmGo r' rs')) (releaseKey (fmGo r rs)) :=
          hmin1 (fmGo r' rs') hm2
        have hk2 : ¬ KeyLt (releaseKey (fmGo r rs)) (releaseKey (fmGo r' rs')) :=
          hmin2 (fmGo r rs) (hperm.mem_iff.mp hm1)
        have hkeq : releaseKey (fmGo r rs) = releaseKey (fmGo r' rs') :=
          KeyLt_eq_of_not hk2 hk1
        rw [key_unique_of_pairwise hpw (fmGo r rs) hm1 (fmGo r' rs') hm2 hkeq]

/-- A release dated 1969-01-12. -/
def releaseEarly : MusicBrainzRelease :=
  ⟨some "r1", none, some "1969-01-12", some "Official", none, none⟩

/-- A release dated 1982. -/
def releaseLate : MusicBrainzRelease :=
  ⟨some "r2", none, some "1982", some "Official", none, none⟩

/-- Witness for C3: swapping two releases with distinct key triples
does not change the canonical release. -/
theorem pickCanonicalRelease_spec_witness :
    ([releaseEarly, releaseLate] : List MusicBrainzRelease).Perm
      [releaseLate, releaseEarly] ∧
    ([releaseEarly, releaseLate].Pairwise fun a b => releaseKey a ≠ releaseKey b) ∧
    pickCanonicalRelease (some [releaseEarly, releaseLate]) =
      pickCanonicalRelease (some [releaseLate, releaseEarly]) :=
  ⟨List.Perm.swap releaseLate releaseEarly [], by decide,
   pickCanonicalRelease_spec.2.2.2.2 [releaseEarly, releaseLate]
     [releaseLate, releaseEarly] (List.Perm.swap releaseLate releaseEarly [])
     (by decide)⟩

/-! ### C4 and C5: the recording ranker -/

/-- The order induced by the `rankRecordings` comparator
(`compareScored ≤ 0`), spelled out: artist match first (`true` before
`false`), then earliest date ascending, then best quality, then best
primacy, then the recording id. -/
def SLe (a b : ScoredRecording) : Prop :=
  (a.artistMatch = true ∧ b.artistMatch = false) ∨
  (a.artistMatch = b.artistMatch ∧
    (jsLt a.earliestDate b.earliestDate = true ∨
      (a.earliestDate = b.earliestDate ∧
        (a.bestQuality < b.bestQuality ∨
          (a.bestQuality = b.bestQuality ∧
            (a.bestPrimaryPenalty < b.bestPrimaryPenalty ∨
              (a.bestPrimaryPenalty = b.bestPrimaryPenalty ∧
                jsLt b.recording.id a.recording.id = false)))))))

theorem scoredLE_iff (a b : ScoredRecording) : scoredLE a b = true ↔ SLe a b := by
  unfold SLe
  simp only [scoredLE, decide_eq_true_eq, compareScored, localeCompare]
  by_cases h1 : a.artistMatch = b.artistMatch
  · rw [if_neg (not_not_intro h1)]
    by_cases h2 : a.earliestDate = b.earliestDate
    · rw [if_neg (not_not_intro h2)]
      by_cases h3 : a.bestQuality = b.bestQuality
      · rw [if_neg (not_not_intro h3)]
        by_cases h4 : a.bestPrimaryPenalty = b.bestPrimaryPenalty
        · rw [if_neg (not_not_intro h4)]
          by_cases h5 : jsLt a.recording.id b.recording.id = true
          · rw [if_pos h5]
            constructor
            · intro _
              exact Or.inr ⟨h1, Or.inr ⟨h2, Or.inr ⟨h3, Or.inr ⟨h4, jsLt_asymm h5⟩⟩⟩⟩
            · intro _; omega
          · rw [if_neg h5]
            by_cases h6 : jsLt b.recording.id a.recording.id = true
            · rw [if_pos h6]
              constructor
              · intro hc; exact absurd hc (by omega)
              · rintro (⟨hx, hy⟩ | ⟨-, hx | ⟨-, hx | ⟨-, hx | ⟨-, hx⟩⟩⟩⟩)
                · rw [hx, hy] at h1; simp at h1
                · rw [h2, jsLt_irrefl] at hx; exact absurd hx Bool.false_ne_true
                · exact absurd hx (by omega)
                · exact absurd hx (by omega)
                · rw [h6] at hx; exact absurd hx.symm Bool.false_ne_true
            · rw [if_neg h6]
              constructor
              · intro _
                exact Or.inr ⟨h1, Or.inr ⟨h2, Or.inr ⟨h3, Or.inr ⟨h4,
                  Bool.eq_false_iff.mpr h6⟩⟩⟩⟩
              · intro _; omega
        · rw [if_pos h4]
          constructor
          · intro hle
            exact Or.inr ⟨h1, Or.inr ⟨h2, Or.inr ⟨h3, Or.inl (by omega)⟩⟩⟩
          · rintro (⟨hx, hy⟩ | ⟨-, hx | ⟨-, hx | ⟨-, hx | ⟨hx, -⟩⟩⟩⟩)
            · rw [hx, hy] at h1; simp at h1
            · rw [h2, jsLt_irrefl] at hx; exact absurd hx Bool.false_ne_true
            · exact absurd hx (by omega)
            · omega
            · exact absurd hx h4
      · rw [if_pos h3]
        constructor
        · intro hle
          exact Or.inr ⟨h1, Or.inr ⟨h2, Or.inl (by omega)⟩⟩
        · rintro (⟨hx, hy⟩ | ⟨-, hx | ⟨-, hx | ⟨hx, -⟩⟩⟩)
          · rw [hx, hy] at h1; simp at h1
          · rw [h2, jsLt_irrefl] at hx; exact absurd hx Bool.false_ne_true
          · omega
          · exact absurd hx h3
    · rw [if_pos h2]
      by_cases h5 : jsLt a.earliestDate b.earliestDate = true
      · rw [if_pos h5]
        constructor
        · intro _
          exact Or.inr ⟨h1, Or.inl h5⟩
        · intro _; omega
      · rw [if_neg h5]
        constructor
        · intro hc; exact absurd hc (by omega)
        · rintro (⟨hx, hy⟩ | ⟨-, hx | ⟨hx, -⟩⟩)
          · rw [hx, hy] at h1; simp at h1
          · exact absurd hx h5
          · exact absurd hx h2
  · rw [if_pos h1]
    cases ham : a.artistMatch
    · rw [if_neg Bool.false_ne_true]
      constructor
      · intro hc; exact absurd hc (by omega)
      · rintro (⟨hx, -⟩ | ⟨hx, -⟩)
        · exact absurd hx Bool.false_ne_true
        · rw [ham] at h1
          exact absurd hx h1
    · rw [if_pos rfl]
      constructor
      · intro _
        cases hbm : b.artistMatch
        · exact Or.inl ⟨rfl, rfl⟩
        · rw [ham, hbm] at h1; simp at h1
      · intro _; omega

theorem jsLt_false_trans {x y z : String} (h1 : jsLt y x = false)
    (h2 : jsLt z y = false) : jsLt z x = false := by
  cases hv : jsLt z x
  · rfl
  · exfalso
    by_cases hxy : jsLt x y = true
    · exact absurd (jsLt_trans hv hxy) (Bool.eq_false_iff.mp h2)
    · have hxy' : jsLt x y = false := Bool.eq_false_iff.mpr hxy
      rw [jsLt_eq_of_not h1 hxy'] at h2
      rw [hv] at h2
      exact Bool.false_ne_true h2.symm

theorem SLe_trans {a b c : ScoredRecording} (h1 : SLe a b) (h2 : SLe b c) :
    SLe a c := by
  unfold SLe at h1 h2 ⊢
  rcases h1 with ⟨ha1, hb1⟩ | ⟨he1, hr1⟩
  · rcases h2 with ⟨ha2, hb2⟩ | ⟨he2, hr2⟩
    · rw [hb1] at ha2; simp at ha2
    · exact Or.inl ⟨ha1, by rw [← he2]; exact hb1⟩
  · rcases h2 with ⟨ha2, hb2⟩ | ⟨he2, hr2⟩
    · exact Or.inl ⟨by rw [he1]; exact ha2, hb2⟩
    · refine Or.inr ⟨he1.trans he2, ?_⟩
      rcases hr1 with hd1 | ⟨hede1, hr1⟩
      · rcases hr2 with hd2 | ⟨hede2, hr2⟩
        · exact Or.inl (jsLt_trans hd1 hd2)
        · exact Or.inl (hede2 ▸ hd1)
      · rcases hr2 with hd2 | ⟨hede2, hr2⟩
        · exact Or.inl (hede1 ▸ hd2)
        · refine Or.inr ⟨hede1.trans hede2, ?_⟩
          rcases hr1 with hq1 | ⟨hqe1, hr1⟩
          · rcases hr2 with hq2 | ⟨hqe2, hr2⟩
            · exact Or.inl (by omega)
            · exact Or.inl (by omega)
          · rcases hr2 with hq2 | ⟨hqe2, hr2⟩
            · exact Or.inl (by omega)
            · refine Or.inr ⟨hqe1.trans hqe2, ?_⟩
              rcases hr1 with hp1 | ⟨hpe1, hid1⟩
              · rcases hr2 with hp2 | ⟨hpe2, hid2⟩
                · exact Or.inl (by omega)
                · exact Or.inl (by omega)
              · rcases hr2 with hp2 | ⟨hpe2, hid2⟩
                · exact Or.inl (by omega)
                · exact Or.inr ⟨hpe1.trans hpe2, jsLt_false_trans hid1 hid2⟩

theorem SLe_total (a b : ScoredRecording) : SLe a b ∨ SLe b a := by
  unfold SLe
  by_cases h1 : a.artistMatch = b.artistMatch
  · by_cases hd : jsLt a.earliestDate b.earliestDate = true
    · exact Or.inl (Or.inr ⟨h1, Or.inl hd⟩)
    · by_cases hd' : jsLt b.earliestDate a.earliestDate = true
      · exact Or.inr (Or.inr ⟨h1.symm, Or.inl hd'⟩)
      · have hede : a.earliestDate = b.earliestDate :=
          jsLt_eq_of_not (Bool.eq_false_iff.mpr hd) (Bool.eq_false_iff.mpr hd')
        by_cases hq : a.bestQuality < b.bestQuality
        · exact Or.inl (Or.inr ⟨h1, Or.inr ⟨hede, Or.inl hq⟩⟩)
        · by_cases hq' : b.bestQuality < a.bestQuality
          · exact Or.inr (Or.inr ⟨h1.symm, Or.inr ⟨hede.symm, Or.inl hq'⟩⟩)
          · have hqe : a.bestQuality = b.bestQuality := by omega
            by_cases hp : a.bestPrimaryPenalty < b.bestPrimaryPenalty
            · exact Or.inl (Or.inr ⟨h1, Or.inr ⟨hede, Or.inr ⟨hqe, Or.inl hp⟩⟩⟩)
            · by_cases hp' : b.bestPrimaryPenalty < a.bestPrimaryPenalty
              · exact Or.inr (Or.inr ⟨h1.symm, Or.inr ⟨hede.symm,
                  Or.inr ⟨hqe.symm, Or.inl hp'⟩⟩⟩)
              · have hpe : a.bestPrimaryPenalty = b.bestPrimaryPenalty := by omega
                by_cases hid : jsLt b.recording.id a.recording.id = true
                · exact Or.inr (Or.inr ⟨h1.symm, Or.inr ⟨hede.symm,
                    Or.inr ⟨hqe.symm, Or.inr ⟨hpe.symm, jsLt_asymm hid⟩⟩⟩⟩)
                · exact Or.inl (Or.inr ⟨h1, Or.inr ⟨hede, Or.inr ⟨hqe,
                    Or.inr ⟨hpe, Bool.eq_false_iff.mpr hid⟩⟩⟩⟩)
  · cases ham : a.artistMatch
    · cases hbm : b.artistMatch
      · rw [ham, hbm] at h1; exact absurd rfl h1
      · exact Or.inr (Or.inl ⟨rfl, rfl⟩)
    · cases hbm : b.artistMatch
      · exact Or.inl (Or.inl ⟨rfl, rfl⟩)
      · rw [ham, hbm] at h1; exact absurd rfl h1

theorem scoredLE_trans (a b c : ScoredRecording) (h1 : scoredLE a b = true)
    (h2 : scoredLE b c = true) : scoredLE a c = true :=
  (scoredLE_iff a c).mpr (SLe_trans ((scoredLE_iff a b).mp h1) ((scoredLE_iff b c).mp h2))

theorem scoredLE_total (a b : ScoredRecording) :
    (scoredLE a b || scoredLE b a) = true := by
  rcases SLe_total a b with h | h
  · rw [(scoredLE_iff a b).mpr h]; rfl
  · rw [(scoredLE_iff b a).mpr h]
    simp

theorem SLe_inv {a b : ScoredRecording} (h : SLe a b) :
    (b.artistMatch = true → a.artistMatch = true) ∧
    (a.artistMatch = b.artistMatch → jsLt b.earliestDate a.earliestDate = false) := by
  unfold SLe at h
  rcases h with ⟨hx, hy⟩ | ⟨hc, hd | ⟨hede, -⟩⟩
  · refine ⟨fun _ => hx, fun he => ?_⟩
    rw [hx, hy] at he
    simp at he
  · exact ⟨fun hb => by rw [hc, hb], fun _ => jsLt_asymm hd⟩
  · refine ⟨fun hb => by rw [hc, hb], fun _ => ?_⟩
    rw [hede, jsLt_irrefl]

/-- Transfer of comparator-sortedness to the recording list returned by
`rankRecordings`: any relation implied by the comparator order on the
scored entries holds pairwise along the output. -/
theorem rankRecordings_pairwise (recs : List MusicBrainzRecording) (q : String)
    (R : MusicBrainzRecording → MusicBrainzRecording → Prop)
    (hR : ∀ x y, SLe (scoreRecording (jsTrim q) x) (scoreRecording (jsTrim q) y) →
      R x y) :
    (rankRecordings recs q).Pairwise R := by
  unfold rankRecordings
  rw [List.pairwise_map]
  have hsorted := List.sorted_mergeSort scoredLE_trans scoredLE_total
    (recs.map (scoreRecording (jsTrim q)))
  refine hsorted.imp_of_mem ?_
  intro a b hma hmb hle
  rw [List.mem_mergeSort] at hma hmb
  obtain ⟨x, hx, rfl⟩ := List.mem_map.mp hma
  obtain ⟨y, hy, rfl⟩ := List.mem_map.mp hmb
  exact hR x y ((scoredLE_iff _ _).mp hle)

theorem earliestGo_le_init (l : List MusicBrainzRelease) : ∀ b,
    earliestGo b l = b ∨ jsLt (earliestGo b l) b = true := by
  induction l with
  | nil => intro b; exact Or.inl rfl
  | cons r rs ih =>
    intro b
    simp only [earliestGo]
    by_cases h0 : (rawDateOf r).length = 0
    · rw [if_pos h0]; exact ih b
    · rw [if_neg h0]
      by_cases hlt : jsLt (normalizePartialDate (rawDateOf r)) b = true
      · rw [if_pos hlt]
        rcases ih (normalizePartialDate (rawDateOf r)) with he | hl
        · rw [he]; exact Or.inr hlt
        · exact Or.inr (jsLt_trans hl hlt)
      · rw [if_neg hlt]; exact ih b

theorem earliestGo_lt_sentinel (l : List MusicBrainzRelease) : ∀ b,
    (∃ r ∈ l, 0 < (rawDateOf r).length ∧
      jsLt (normalizePartialDate (rawDateOf r)) "9999-99-99" = true) →
    jsLt (earliestGo b l) "9999-99-99" = true := by
  induction l with
  | nil =>
    rintro b ⟨r, hr, -⟩
    exact absurd hr (List.not_mem_nil r)
  | cons r rs ih =>
    rintro b ⟨x, hx, hlen, hxlt⟩
    simp only [earliestGo]
    rcases List.mem_cons.mp hx with hx | hx
    · subst hx
      have h0 : ¬ (rawDateOf x).length = 0 := by omega
      rw [if_neg h0]
      by_cases hlt : jsLt (normalizePartialDate (rawDateOf x)) b = true
      · rw [if_pos hlt]
        rcases earliestGo_le_init rs (normalizePartialDate (rawDateOf x)) with he | hl
        · rw [he]; exact hxlt
        · exact jsLt_trans hl hxlt
      · rw [if_neg hlt]
        have hb9 : jsLt b "9999-99-99" = true := by
          by_cases hbn : jsLt b (normalizePartialDate (rawDateOf x)) = true
          · exact jsLt_trans hbn hxlt
          · rw [jsLt_eq_of_not (Bool.eq_false_iff.mpr hbn) (Bool.eq_false_iff.mpr hlt)]
            exact hxlt
        rcases earliestGo_le_init rs b with he | hl
        · rw [he]; exact hb9
        · exact jsLt_trans hl hb9
    · by_cases h0 : (rawDateOf r).length = 0
      · rw [if_pos h0]; exact ih b ⟨x, hx, hlen, hxlt⟩
      · rw [if_neg h0]
        by_cases hlt : jsLt (normalizePartialDate (rawDateOf r)) b = true
        · rw [if_pos hlt]
          exact ih (normalizePartialDate (rawDateOf r)) ⟨x, hx, hlen, hxlt⟩
        · rw [if_neg hlt]
          exact ih b ⟨x, hx, hlen, hxlt⟩

/-- The recording has at least one release carrying a real date: a
present, non-blank date whose normalized form sorts strictly below the
maximal sentinel key. -/
def HasRealDateRelease (rec : MusicBrainzRecording) : Prop :=
  ∃ l, rec.releases = some l ∧ ∃ r ∈ l,
    0 < (rawDateOf r).length ∧
    jsLt (normalizePartialDate (rawDateOf r)) "9999-99-99" = true

theorem hasRealDate_lt {rec : MusicBrainzRecording} (h : HasRealDateRelease rec) :
    jsLt (getEarliestReleaseDate rec.releases) "9999-99-99" = true := by
  obtain ⟨l, hl, hr⟩ := h
  rw [hl]
  cases l with
  | nil =>
    obtain ⟨r, hrm, -⟩ := hr
    exact absurd hrm (List.not_mem_nil r)
  | cons x xs => exact earliestGo_lt_sentinel (x :: xs) "9999-99-99" hr

theorem scoreRecording_zero (q : String) (rec : MusicBrainzRecording)
    (h : rec.releases = none ∨ rec.releases = some []) :
    scoreRecording (jsTrim q) rec =
      ⟨rec, isExactArtistMatch rec (jsTrim q), "9999-99-99", 999, 99⟩ := by
  rcases h with h | h <;>
    simp [scoreRecording, h, getEarliestReleaseDate, bestPenaltiesGo]

theorem qualityPenalty_lt_sentinel (r : MusicBrainzRelease) :
    getReleaseQualityPenalty r < 999 := by
  simp only [getReleaseQualityPenalty]
  split_ifs <;> omega

theorem primacyPenalty_lt_sentinel (r : MusicBrainzRelease) :
    getPrimaryReleaseGroupPenalty r < 99 := by
  simp only [getPrimaryReleaseGroupPenalty]
  split_ifs <;> omega

/-- C4: a recording whose artist credit exactly matches the query
artist (case-insensitive, whitespace-trimmed) always ranks strictly
above every non-matching recording; a blank query artist matches
nothing; and among recordings of equal match status the one with the
lexically smaller normalized earliest-date key comes first. -/
theorem rankRecordings_artist_priority :
    (∀ (rec : MusicBrainzRecording) (artist : String), jsTrim artist = "" →
      isExactArtistMatch rec artist = false) ∧
    (∀ (recs : List MusicBrainzRecording) (q : String),
      (rankRecordings recs q).Pairwise fun x y =>
        (isExactArtistMatch y (jsTrim q) = true →
          isExactArtistMatch x (jsTrim q) = true) ∧
        (isExactArtistMatch x (jsTrim q) = isExactArtistMatch y (jsTrim q) →
          jsLt (getEarliestReleaseDate y.releases)
            (getEarliestReleaseDate x.releases) = false)) := by
  constructor
  · intro rec artist h
    have hn : normalizeForCompare artist = "" := by
      rw [normalizeForCompare, h]; rfl
    simp [isExactArtistMatch, hn]
  · intro recs q
    refine rankRecordings_pairwise recs q _ ?_
    intro x y hle
    exact SLe_inv hle

/-- A recording with no artist credits and no releases. -/
def emptyRecording : MusicBrainzRecording := ⟨"rec-1", "Song", none, none, none⟩

/-- Witness for C4 at a whitespace-only artist query. -/
theorem rankRecordings_artist_priority_witness :
    jsTrim "   " = "" ∧ isExactArtistMatch emptyRecording "   " = false :=
  ⟨by decide, rankRecordings_artist_priority.1 emptyRecording "   " (by decide)⟩

/-- C5: both release scorers stay strictly below the sentinel values
999 and 99; a recording with zero releases is scored with the maximal
date key `"9999-99-99"` and the sentinels 999 / 99; ranking never
loses such a recording (it is total — every input recording appears in
the output); and a zero-release recording never ranks before a
recording of equal artist-match status that has a release with a real
date. -/
theorem rankRecordings_zero_releases :
    (∀ r : MusicBrainzRelease,
      getReleaseQualityPenalty r < 999 ∧ getPrimaryReleaseGroupPenalty r < 99) ∧
    (∀ (q : String) (rec : MusicBrainzRecording),
      rec.releases = none ∨ rec.releases = some [] →
      scoreRecording (jsTrim q) rec =
        ⟨rec, isExactArtistMatch rec (jsTrim q), "9999-99-99", 999, 99⟩) ∧
    (∀ (recs : List MusicBrainzRecording) (q : String) (rec : MusicBrainzRecording),
      rec ∈ recs → rec ∈ rankRecordings recs q) ∧
    (∀ (recs : List MusicBrainzRecording) (q : String),
      (rankRecordings recs q).Pairwise fun x y =>
        ¬ ((x.releases = none ∨ x.releases = some []) ∧
          isExactArtistMatch x (jsTrim q) = isExactArtistMatch y (jsTrim q) ∧
          HasRealDateRelease y)) := by
  refine ⟨fun r => ⟨qualityPenalty_lt_sentinel r, primacyPenalty_lt_sentinel r⟩,
    scoreRecording_zero, ?_, ?_⟩
  · intro recs q rec hmem
    unfold rankRecordings
    refine List.mem_map.mpr ⟨scoreRecording (jsTrim q) rec, ?_, rfl⟩
    rw [List.mem_mergeSort]
    exact List.mem_map.mpr ⟨rec, hmem, rfl⟩
  · intro recs q
    refine rankRecordings_pairwise recs q _ ?_
    intro x y hle
    rintro ⟨hzero, ham, hreal⟩
    have hx9 : getEarliestReleaseDate x.releases = "9999-99-99" := by
      rcases hzero with h | h <;> rw [h] <;> rfl
    have hy : jsLt (getEarliestReleaseDate y.releases) "9999-99-99" = true :=
      hasRealDate_lt hreal
    have hinv : jsLt (getEarliestReleaseDate y.releases)
        (getEarliestReleaseDate x.releases) = false := (SLe_inv hle).2 ham
    rw [hx9] at hinv
    exact absurd hy (Bool.eq_false_iff.mp hinv)

/-- Witness for C5 at a concrete zero-release recording. -/
theorem rankRecordings_zero_releases_witness :
    (emptyRecording.releases = none ∨ emptyRecording.releases = some []) ∧
    scoreRecording (jsTrim "the beatles") emptyRecording =
      ⟨emptyRecording, isExactArtistMatch emptyRecording (jsTrim "the beatles"),
        "9999-99-99", 999, 99⟩ :=
  ⟨Or.inl rfl,
   rankRecordings_zero_releases.2.1 "the beatles" emptyRecording (Or.inl rfl)⟩
